import Mathlib

/-!
Verification of the cctv_ai event-capture pipeline core.

Shallow embedding of:
  * `app/event_merger.py` (`_ActiveEvent`, `_EventOut`, `EventMerger`)
  * `app/ringbuffer.py`   (`FFmpegRingBuffer.make_clip` segment selection)
  * `app/detector.py`     (`ObjectDetector.stream_detect` reconnect/backoff loop)
  * `app/main.py`         (`process_emitted` clip-window logic, blackout gate)

Timestamps (Python floats coming from `time.time()`) are modelled as
rationals `ℚ`, so that ordering comparisons are exact and decidable.
Python dicts (`_ActiveEvent.counts`) are modelled as insertion-ordered
association lists with unique keys, matching dict iteration order, which
`max(counts, key=counts.get)` depends on.
-/

abbrev Ts := ℚ
abbrev Cls := String

/-- Python `dict.get(cls, 0)` over an insertion-ordered association list. -/
def countsGet : List (Cls × Nat) → Cls → Nat
  | [], _ => 0
  | (k, v) :: rest, c => if k = c then v else countsGet rest c

/-- Python `counts[cls] = counts.get(cls, 0) + 1`: an existing key keeps its
position and is incremented in place; a new key is appended at the end
(dict insertion order). -/
def countsInc : List (Cls × Nat) → Cls → List (Cls × Nat)
  | [], c => [(c, 1)]
  | (k, v) :: rest, c => if k = c then (k, v + 1) :: rest else (k, v) :: countsInc rest c

/-- Structure `_ActiveEvent` from `app/event_merger.py`. -/
structure ActiveEvent where
  start_ts : Ts
  last_ts : Ts
  last_det_ts : Ts
  counts : List (Cls × Nat)
deriving Repr, DecidableEq

/-- Method `_ActiveEvent.add(cls, ts)`. -/
def ActiveEvent.add (ae : ActiveEvent) (cls : Cls) (ts : Ts) : ActiveEvent :=
  { ae with last_ts := ts, last_det_ts := ts, counts := countsInc ae.counts cls }

/-- Python `max(iterable, key=f)`: scan left to right, replace the current
best only on a strictly larger key, so the first maximal element wins. -/
def maxByCount : (Cls × Nat) → List (Cls × Nat) → (Cls × Nat)
  | best, [] => best
  | best, (k, v) :: rest => maxByCount (if best.2 < v then (k, v) else best) rest

/-- Method `_ActiveEvent.top_cls()`: `max(self.counts, key=self.counts.get)` then
`(cls, self.counts.get(cls, 0))`; `("unknown", 0)` on an empty dict. -/
def ActiveEvent.top_cls (ae : ActiveEvent) : Cls × Nat :=
  match ae.counts with
  | [] => ("unknown", 0)
  | p :: rest =>
    let c := (maxByCount p rest).1
    (c, countsGet ae.counts c)

/-- Structure `_EventOut` from `app/event_merger.py`. -/
structure EventOut where
  cls : Cls
  count : Nat
deriving Repr, DecidableEq

/-- The `(t_first, t_last, _EventOut)` triple returned by `flush_due` /
`force_close`. -/
abbrev Emitted := Ts × Ts × EventOut

/-- The `EventMerger` state from `app/event_merger.py` (config plus the two
mutable fields `_active` and `_cooldown_until`). -/
structure EventMerger where
  idle_end : Ts
  cooldown : Ts
  active : Option ActiveEvent
  cooldown_until : Ts
deriving Repr, DecidableEq

/-- Constructor `EventMerger.__init__(idle_end, cooldown)`: no active event, cooldown
deadline 0.0. -/
def EventMerger.init (idle_end cooldown : Ts) : EventMerger :=
  ⟨idle_end, cooldown, none, 0⟩

/-- Method `EventMerger.push(cls, ts)`.  Returns the Python return value (always
`None`) paired with the updated state. -/
def EventMerger.push (m : EventMerger) (cls : Cls) (ts : Ts) : Option Emitted × EventMerger :=
  if ts < m.cooldown_until ∧ m.active = none then (none, m)
  else
    match m.active with
    | none => (none, { m with active := some ((ActiveEvent.mk ts ts ts []).add cls ts) })
    | some ae => (none, { m with active := some (ae.add cls ts) })

/-- Method `EventMerger.flush_due(now_ts)`. -/
def EventMerger.flush_due (m : EventMerger) (now_ts : Ts) : Option Emitted × EventMerger :=
  match m.active with
  | none => (none, m)
  | some ae =>
    if m.idle_end ≤ now_ts - ae.last_det_ts then
      (some (ae.start_ts, ae.last_det_ts, ⟨(ae.top_cls).1, (ae.top_cls).2⟩),
       { m with active := none, cooldown_until := now_ts + m.cooldown })
    else (none, m)

/-- Method `EventMerger.force_close(now_ts)`. -/
def EventMerger.force_close (m : EventMerger) (now_ts : Ts) : Option Emitted × EventMerger :=
  match m.active with
  | none => (none, m)
  | some ae =>
    (some (ae.start_ts, ae.last_det_ts, ⟨(ae.top_cls).1, (ae.top_cls).2⟩),
     { m with active := none, cooldown_until := now_ts + m.cooldown })

/-- Fold a sequence of `push` calls (class, timestamp) into the merger. -/
def runPushes (m : EventMerger) (ps : List (Cls × Ts)) : EventMerger :=
  ps.foldl (fun m p => (m.push p.1 p.2).2) m

example :
    ((runPushes (EventMerger.init 4 6) [("person", 0), ("person", 1), ("person", 2)]).flush_due 7).1
      = some (0, 2, ⟨"person", 3⟩) := by
  norm_num [runPushes, EventMerger.init, EventMerger.push, EventMerger.flush_due,
    ActiveEvent.add, ActiveEvent.top_cls, maxByCount, countsInc, countsGet]

example :
    ((runPushes (EventMerger.init 4 6) [("a", 0), ("b", 1), ("b", 2)]).flush_due 10).1
      = some (0, 2, ⟨"b", 2⟩) := by
  norm_num [runPushes, EventMerger.init, EventMerger.push, EventMerger.flush_due,
    ActiveEvent.add, ActiveEvent.top_cls, maxByCount, countsInc, countsGet]
  simp +decide [maxByCount, countsGet]

/-! ## Ring buffer clip extraction (`app/ringbuffer.py`)

A stored segment is identified by its start timestamp (decoded from the
`%Y%m%d_%H%M%S` filename); `sorted(glob.glob(...))` yields the files in
chronological order because the name encoding is monotone in time.  We
model the segment list as the list of start timestamps and `make_clip`'s
selection/error logic; the actual ffmpeg concatenation is an external
tool call outside the model. -/

/-- The two `RuntimeError`s `make_clip` can raise before invoking ffmpeg. -/
inductive ClipError
  | noSegments
  | noOverlap
deriving Repr, DecidableEq

/-- The selection filter inside `FFmpegRingBuffer.make_clip`:
`if ts + self.seg >= t0 and ts <= t1: selected.append(s)`. -/
def segSelect (seg t0 t1 : ℚ) (segs : List ℚ) : List ℚ :=
  segs.filter (fun ts => decide (t0 ≤ ts + seg ∧ ts ≤ t1))

/-- Method `FFmpegRingBuffer.make_clip(t0, t1)` up to the ffmpeg invocation:
`RuntimeError("No segments in buffer")` on an empty buffer,
`RuntimeError("No segment overlaps detection window")` when the filter
selects nothing, otherwise the selected segment starts in listing order. -/
def make_clip (seg t0 t1 : ℚ) (segs : List ℚ) : Except ClipError (List ℚ) :=
  if segs.isEmpty then Except.error ClipError.noSegments
  else
    let selected := segSelect seg t0 t1 segs
    if selected.isEmpty then Except.error ClipError.noOverlap
    else Except.ok selected

example : make_clip 2 1 5 [0, 2, 4] = Except.ok [0, 2, 4] := by
  norm_num [make_clip, segSelect, List.filter]

example : make_clip 2 10 12 [0, 2, 4] = Except.error ClipError.noOverlap := by
  norm_num [make_clip, segSelect, List.filter]

example : make_clip 2 2 3 [0] = Except.ok [0] := by
  norm_num [make_clip, segSelect, List.filter]

/-! ## Streaming detector read loop (`app/detector.py`, `stream_detect`)

One iteration of the `while True` loop, as a function of the loop-carried
state, the outcome of `cap.read()` (`ok`) and the wall clock `now`.  The
side effects of an iteration (`time.sleep`, reopening the capture,
processing the frame) are recorded as an action list.  `time.sleep`
raises `ValueError` on a negative duration, so a reconnect whose current
backoff is negative aborts the generator at the `time.sleep(backoff)`
call, before the reopen and before the doubling of the backoff; an
iteration therefore either produces the next loop state or raises.
`last_ok` after a reconnect is `time.time()` taken just after the reopen,
which we approximate by `now`; the backoff logic does not depend on it. -/

/-- Watchdog/reconnect parameters of `ObjectDetector`. -/
structure DetCfg where
  reopen_on_stall_sec : ℚ
  max_fail_reads : Nat
  backoff_init : ℚ
  backoff_max : ℚ
deriving Repr, DecidableEq

/-- Loop-carried state of `stream_detect`'s read loop. -/
structure LoopState where
  last_ok : ℚ
  fail_reads : Nat
  backoff : ℚ
  reopen_request : Bool
deriving Repr, DecidableEq

/-- Observable side effects of one loop iteration. -/
inductive LoopAction
  | sleep (d : ℚ)
  | reopen
  | processFrame
deriving Repr, DecidableEq

/-- Outcome of one loop iteration: either the next loop state, or the
iteration raised (the `ValueError` from `time.sleep` on a negative
duration escapes the generator and ends the loop). -/
inductive StepOutcome
  | next (st : LoopState)
  | raised
deriving Repr, DecidableEq

/-- One iteration of the read loop (lines 179-210 of `app/detector.py`):
on a failed read, increment `fail_reads`; when stalled, too many failures,
or externally requested, reconnect: `time.sleep(backoff)` — which raises
`ValueError` if the backoff is negative, aborting the iteration before
the reopen and before the doubling — then reopen, reset counters, and
double the backoff capped at `backoff_max`; otherwise sleep 0.2s.  On a
successful read, reset `fail_reads` and the backoff and process the
frame. -/
def streamStep (cfg : DetCfg) (st : LoopState) (ok : Bool) (now : ℚ) :
    StepOutcome × List LoopAction :=
  if ok then
    (StepOutcome.next { st with last_ok := now, fail_reads := 0, backoff := cfg.backoff_init },
     [LoopAction.processFrame])
  else
    let fail := st.fail_reads + 1
    if cfg.reopen_on_stall_sec < now - st.last_ok ∨ cfg.max_fail_reads ≤ fail ∨
        st.reopen_request = true then
      if st.backoff < 0 then
        (StepOutcome.raised, [])
      else
        (StepOutcome.next
           { last_ok := now, fail_reads := 0,
             backoff := min (st.backoff * 2) cfg.backoff_max, reopen_request := false },
         [LoopAction.sleep st.backoff, LoopAction.reopen])
    else
      (StepOutcome.next { st with fail_reads := fail }, [LoopAction.sleep (1 / 5)])

/-- State at loop entry (lines 174-177): `last_ok = time.time()`,
`fail_reads = 0`, `backoff = self.backoff_init`. -/
def initLoopState (cfg : DetCfg) (t : ℚ) : LoopState :=
  ⟨t, 0, cfg.backoff_init, false⟩

/-- Fold one read outcome into the loop: once an iteration has raised,
the loop is over and no further state is reached. -/
def stepFold (cfg : DetCfg) (o : StepOutcome) (i : Bool × ℚ) : StepOutcome :=
  match o with
  | StepOutcome.raised => StepOutcome.raised
  | StepOutcome.next st => (streamStep cfg st i.1 i.2).1

/-- Run the read loop over a list of `(ok, now)` read outcomes. -/
def runLoop (cfg : DetCfg) (t : ℚ) (inputs : List (Bool × ℚ)) : StepOutcome :=
  inputs.foldl (stepFold cfg) (StepOutcome.next (initLoopState cfg t))

/-! ## Orchestrator event handling (`app/main.py`, `process_emitted`)

The decision logic of `process_emitted` for one emitted event: either the
event is discarded as too short (arming a short blackout), or its clip
window is empty after the safety clamp (event silently skipped), or a
clip extraction over the computed window is requested.  In all cases the
function sets the blackout deadline `next_armed_ts`; the main loop drops
any detection read at a time strictly before that deadline. -/

/-- Orchestrator tunables used by `process_emitted`:
`MIN_EVENT_SECONDS`, `POST_EVENT_SILENCE_SEC`, `PRE_ROLL`, `POST_ROLL`,
`CLIP_SAFETY_LAG`. -/
structure OrchCfg where
  min_event_seconds : ℚ
  post_event_silence_sec : ℚ
  pre_roll : ℚ
  post_roll : ℚ
  clip_safety_lag : ℚ
deriving Repr, DecidableEq

/-- What `process_emitted` decides to do with an emitted event. -/
inductive ClipDecision
  | skipShort
  | skipEmptyWindow
  | extract (t0 t1 : ℚ)
deriving Repr, DecidableEq

/-- Result of `process_emitted`: the new blackout deadline `next_armed_ts`
and the decision taken. -/
structure ProcResult where
  next_armed_ts : ℚ
  decision : ClipDecision
deriving Repr, DecidableEq

/-- Lines 228-250 of `app/main.py`: `dur = max(0.0, t_last - t_first)`;
if `dur < MIN_EVENT_SECONDS`, skip and arm
`next_armed_ts = now + min(POST_EVENT_SILENCE_SEC, 2.0)`; otherwise arm
`next_armed_ts = now + POST_EVENT_SILENCE_SEC`, compute
`t0 = max(0.0, t_first - pre_roll)`,
`t1 = min(t_last + post_roll, now - CLIP_SAFETY_LAG)`, return without
extraction if `t1 <= t0`, else request extraction of `[t0, t1]`. -/
def process_emitted (cfg : OrchCfg) (t_first t_last now : ℚ) : ProcResult :=
  let dur := max 0 (t_last - t_first)
  if dur < cfg.min_event_seconds then
    ⟨now + min cfg.post_event_silence_sec 2, ClipDecision.skipShort⟩
  else
    let t0 := max 0 (t_first - cfg.pre_roll)
    let t1 := min (t_last + cfg.post_roll) (now - cfg.clip_safety_lag)
    if t1 ≤ t0 then ⟨now + cfg.post_event_silence_sec, ClipDecision.skipEmptyWindow⟩
    else ⟨now + cfg.post_event_silence_sec, ClipDecision.extract t0 t1⟩

/-- The main-loop blackout gate (lines 351-353 of `app/main.py`):
`if now < next_armed_ts: continue`, i.e. the detection is dropped. -/
def blackoutDrops (now armed : ℚ) : Bool :=
  decide (now < armed)

/-! ## Helper lemmas about `maxByCount` / `countsGet` -/

lemma maxByCount_fst_le : ∀ (l : List (Cls × Nat)) (best : Cls × Nat),
    best.2 ≤ (maxByCount best l).2 := by
  intro l
  induction l with
  | nil => intro best; simp [maxByCount]
  | cons q rest ih =>
    intro best
    rw [maxByCount]
    by_cases h : best.2 < q.2
    · rw [if_pos h]
      exact le_trans (le_of_lt h) (ih q)
    · rw [if_neg h]
      exact ih best

lemma maxByCount_mem_le : ∀ (l : List (Cls × Nat)) (best q : Cls × Nat),
    q ∈ l → q.2 ≤ (maxByCount best l).2 := by
  intro l
  induction l with
  | nil => intro best q hq; simp at hq
  | cons r rest ih =>
    intro best q hq
    rw [maxByCount]
    rcases List.mem_cons.mp hq with hq | hq
    · subst hq
      by_cases h : best.2 < q.2
      · rw [if_pos h]
        exact maxByCount_fst_le rest q
      · rw [if_neg h]
        exact le_trans (le_of_not_lt h) (maxByCount_fst_le rest best)
    · exact ih _ q hq

lemma maxByCount_mem : ∀ (l : List (Cls × Nat)) (best : Cls × Nat),
    maxByCount best l = best ∨ maxByCount best l ∈ l := by
  intro l
  induction l with
  | nil => intro best; simp [maxByCount]
  | cons r rest ih =>
    intro best
    rw [maxByCount]
    by_cases h : best.2 < r.2
    · rw [if_pos h]
      rcases ih r with h1 | h1
      · right
        rw [h1]
        exact List.mem_cons_self r rest
      · right
        exact List.mem_cons_of_mem r h1
    · rw [if_neg h]
      rcases ih best with h1 | h1
      · left
        exact h1
      · right
        exact List.mem_cons_of_mem r h1

lemma countsGet_of_mem_nodup : ∀ (l : List (Cls × Nat)) (k : Cls) (v : Nat),
    (l.map Prod.fst).Nodup → (k, v) ∈ l → countsGet l k = v := by
  intro l
  induction l with
  | nil => intro k v _ hm; simp at hm
  | cons r rest ih =>
    intro k v hnd hm
    rw [List.map_cons, List.nodup_cons] at hnd
    rcases List.mem_cons.mp hm with hm | hm
    · rw [← hm]
      simp [countsGet]
    · have hk : r.1 ≠ k := by
        intro hk
        exact hnd.1 (hk ▸ (List.mem_map.mpr ⟨(k, v), hm, rfl⟩))
      simpa [countsGet, hk] using ih k v hnd.2 hm

/-- The method `top_cls` always reports the stored count of the class it returns. -/
lemma top_cls_snd_eq (ae : ActiveEvent) :
    (ae.top_cls).2 = countsGet ae.counts (ae.top_cls).1 := by
  rw [ActiveEvent.top_cls]
  cases h : ae.counts with
  | nil => simp [countsGet]
  | cons p rest => simp

lemma listTop_dominates (q : Cls × Nat) (rest : List (Cls × Nat))
    (hWF : (((q :: rest).map Prod.fst)).Nodup) :
    ∀ p ∈ q :: rest, p.2 ≤ countsGet (q :: rest) (maxByCount q rest).1 := by
  intro p hp
  have hmem : maxByCount q rest ∈ q :: rest := by
    rcases maxByCount_mem rest q with h1 | h1
    · rw [h1]
      exact List.mem_cons_self q rest
    · exact List.mem_cons_of_mem q h1
  have hget : countsGet (q :: rest) (maxByCount q rest).1 = (maxByCount q rest).2 :=
    countsGet_of_mem_nodup _ _ _ hWF hmem
  rw [hget]
  rcases List.mem_cons.mp hp with hp | hp
  · exact hp ▸ maxByCount_fst_le rest q
  · exact maxByCount_mem_le rest q p hp

/-- With unique keys (a Python dict), the class reported by `top_cls` has the
maximal stored count. -/
lemma top_cls_dominates (ae : ActiveEvent)
    (hWF : (ae.counts.map Prod.fst).Nodup) :
    ∀ p ∈ ae.counts, p.2 ≤ (ae.top_cls).2 := by
  intro p hp
  cases h : ae.counts with
  | nil => rw [h] at hp; simp at hp
  | cons q rest =>
    have htop : ae.top_cls
        = ((maxByCount q rest).1, countsGet (q :: rest) (maxByCount q rest).1) := by
      simp only [ActiveEvent.top_cls, h]
    rw [htop]
    exact listTop_dominates q rest (h ▸ hWF) p (h ▸ hp)

/-! ## Claim theorems: Event Merger -/

/-- C9: for every input (class, ts) and every merger state, `push` returns
`None`; events are produced only by `flush_due` or `force_close`, never
directly by `push`. -/
theorem push_returns_none (m : EventMerger) (cls : Cls) (ts : Ts) :
    (m.push cls ts).1 = none := by
  rw [EventMerger.push]
  split
  · rfl
  · cases m.active <;> rfl

/-- C10: whenever `flush_due now` returns `None` (no active event, or the
idle gap is still below `idle_end`), the merger state is completely
unchanged. -/
theorem flush_due_none_frame (m : EventMerger) (now : Ts)
    (h : (m.flush_due now).1 = none) : (m.flush_due now).2 = m := by
  cases hm : m.active with
  | none => simp [EventMerger.flush_due, hm]
  | some ae =>
    simp only [EventMerger.flush_due, hm] at h ⊢
    by_cases hle : m.idle_end ≤ now - ae.last_det_ts
    · rw [if_pos hle] at h
      simp at h
    · rw [if_neg hle]

/-- Witness for C10 at a concrete state: a merger with no active event is
untouched by `flush_due`. -/
theorem flush_due_none_frame_witness :
    ((EventMerger.init 4 6).flush_due 9).2 = EventMerger.init 4 6 :=
  flush_due_none_frame (EventMerger.init 4 6) 9 rfl

/-- C4: with no active event, a `push` with `ts < cooldown_until` is a
no-op; a `push` with `ts ≥ cooldown_until` starts a new active event with
`start = last = ts` and a single count for its class; with an active
event, the detection is always recorded into it. -/
theorem push_cooldown_spec (m : EventMerger) (cls : Cls) (ts : Ts) :
    (m.active = none → ts < m.cooldown_until → m.push cls ts = (none, m))
    ∧ (m.active = none → m.cooldown_until ≤ ts →
        m.push cls ts = (none, { m with active := some ⟨ts, ts, ts, [(cls, 1)]⟩ }))
    ∧ (∀ ae, m.active = some ae →
        m.push cls ts = (none, { m with active := some (ae.add cls ts) })) := by
  refine ⟨fun ha hlt => ?_, fun ha hge => ?_, fun ae ha => ?_⟩
  · rw [EventMerger.push, if_pos ⟨hlt, ha⟩]
  · rw [EventMerger.push, if_neg (fun hc => absurd hc.1 (not_lt.mpr hge)), ha]
    rfl
  · rw [EventMerger.push, if_neg (fun hc => by rw [ha] at hc; exact Option.noConfusion hc.2), ha]

/-- Witness for C4: concretely, a push at ts = 3 into a merger cooling down
until 5 is dropped, while a push at ts = 5 starts a fresh event. -/
theorem push_cooldown_spec_witness :
    (EventMerger.mk 4 6 none 5).push "person" 3 = (none, EventMerger.mk 4 6 none 5)
    ∧ (EventMerger.mk 4 6 none 5).push "person" 5
        = (none, EventMerger.mk 4 6 (some ⟨5, 5, 5, [("person", 1)]⟩) 5) := by
  constructor
  · exact (push_cooldown_spec (EventMerger.mk 4 6 none 5) "person" 3).1 rfl (by norm_num)
  · exact (push_cooldown_spec (EventMerger.mk 4 6 none 5) "person" 5).2.1 rfl (by norm_num)

/-- C3: with an active event, `flush_due now` emits exactly when
`now - last_det_ts ≥ idle_end`; the emission carries the event's start and
last-detection timestamps and the dominant class (the class of maximal
count, first-inserted winning ties), and the cooldown deadline becomes
`now + cooldown`; with no active event nothing is emitted. -/
theorem flush_due_spec (m : EventMerger) (now : Ts)
    (hWF : ∀ ae, m.active = some ae → (ae.counts.map Prod.fst).Nodup) :
    (m.active = none → m.flush_due now = (none, m))
    ∧ ∀ ae, m.active = some ae →
        ((m.idle_end ≤ now - ae.last_det_ts →
            m.flush_due now =
              (some (ae.start_ts, ae.last_det_ts, ⟨(ae.top_cls).1, (ae.top_cls).2⟩),
               { m with active := none, cooldown_until := now + m.cooldown })
            ∧ ∀ p ∈ ae.counts, p.2 ≤ (ae.top_cls).2)
          ∧ (now - ae.last_det_ts < m.idle_end → m.flush_due now = (none, m))) := by
  refine ⟨fun ha => ?_, fun ae ha => ⟨fun hle => ⟨?_, top_cls_dominates ae (hWF ae ha)⟩,
    fun hlt => ?_⟩⟩
  · simp only [EventMerger.flush_due, ha]
  · simp only [EventMerger.flush_due, ha]
    rw [if_pos hle]
  · simp only [EventMerger.flush_due, ha]
    rw [if_neg (not_le.mpr hlt)]

/-- Witness for C3: counts {person: 3, dog: 5} and an 8-second idle gap
yield the dominant class "dog" with count 5 and cooldown until 16. -/
theorem flush_due_spec_witness :
    (EventMerger.mk 4 6 (some ⟨0, 2, 2, [("person", 3), ("dog", 5)]⟩) 0).flush_due 10
      = (some (0, 2, ⟨"dog", 5⟩), EventMerger.mk 4 6 none 16) := by
  have h := (((flush_due_spec
      (EventMerger.mk 4 6 (some ⟨0, 2, 2, [("person", 3), ("dog", 5)]⟩) 0) 10
      (by intro ae hae; cases hae; simp)).2
      ⟨0, 2, 2, [("person", 3), ("dog", 5)]⟩ rfl).1 (by norm_num)).1
  rw [h]
  norm_num [ActiveEvent.top_cls, maxByCount, countsGet]
  decide

/-! ## Claim theorems: Clip Extractor -/

/-- C2 is false as stated: the code's selection test is
`ts + seg >= t0` (a closed bound), so the 2-second segment starting at 0,
whose half-open interval [0,2) does not intersect [2,3], is nevertheless
selected; moreover an empty buffer fails with "No segments in buffer"
rather than the no-overlap error. -/
theorem make_clip_boundary_counterexample :
    make_clip 2 2 3 [0] = Except.ok [0]
    ∧ ¬ ((2 : ℚ) < 0 + 2)
    ∧ make_clip 2 10 12 [] = Except.error ClipError.noSegments := by
  refine ⟨?_, by norm_num, rfl⟩
  norm_num [make_clip, segSelect, List.filter]

/-- C2 (amended): for a nonempty stored segment list, `make_clip` selects
exactly those segments whose closed interval [start, start + seg]
intersects [t0, t1] (so a segment ending exactly at t0 is selected), in
chronological order, and fails with the no-overlap error exactly when no
segment's closed interval intersects the request. -/
theorem make_clip_selection (seg t0 t1 : ℚ) (segs : List ℚ) (hne : segs ≠ []) :
    ((∃ s ∈ segs, t0 ≤ s + seg ∧ s ≤ t1) →
      make_clip seg t0 t1 segs = Except.ok (segSelect seg t0 t1 segs)
      ∧ (∀ s, s ∈ segSelect seg t0 t1 segs ↔ s ∈ segs ∧ t0 ≤ s + seg ∧ s ≤ t1)
      ∧ (segs.Sorted (· ≤ ·) → (segSelect seg t0 t1 segs).Sorted (· ≤ ·)))
    ∧ ((∀ s ∈ segs, ¬(t0 ≤ s + seg ∧ s ≤ t1)) →
      make_clip seg t0 t1 segs = Except.error ClipError.noOverlap) := by
  constructor
  · rintro ⟨s, hs, hsel⟩
    have hmem : s ∈ segSelect seg t0 t1 segs := by
      rw [segSelect, List.mem_filter]
      exact ⟨hs, by simpa using hsel⟩
    refine ⟨?_, fun x => ?_, fun hsort => hsort.filter _⟩
    · rw [make_clip]
      rw [if_neg (by simpa [List.isEmpty_iff] using hne)]
      rw [if_neg (by simpa [List.isEmpty_iff] using List.ne_nil_of_mem hmem)]
    · rw [segSelect, List.mem_filter]
      simp
  · intro hnone
    have hsel : segSelect seg t0 t1 segs = [] := by
      rw [segSelect, List.filter_eq_nil_iff]
      intro a ha
      simpa using hnone a ha
    rw [make_clip]
    rw [if_neg (by simpa [List.isEmpty_iff] using hne)]
    rw [hsel]
    rfl

/-- Witness for the amended C2 on the spec's own examples: segments
starting at 0, 2, 4 of duration 2 with request [1,5] select all three,
and request [10,12] fails with the no-overlap error. -/
theorem make_clip_selection_witness :
    make_clip 2 1 5 [0, 2, 4] = Except.ok [0, 2, 4]
    ∧ make_clip 2 10 12 [0, 2, 4] = Except.error ClipError.noOverlap := by
  constructor
  · have h := ((make_clip_selection 2 1 5 [0, 2, 4] (by simp)).1
      ⟨0, by simp, by norm_num⟩).1
    rw [h]
    norm_num [segSelect, List.filter]
  · exact (make_clip_selection 2 10 12 [0, 2, 4] (by simp)).2
      (by intro s hs; fin_cases hs <;> norm_num)

/-! ## Claim theorems: Streaming detector backoff -/

/-- C6: every reconnect of the read loop sleeps the current backoff before
reopening and then doubles the backoff capped at backoff_max (a reconnect
whose sleep raises on a negative delay reopens nothing and doubles
nothing); every successful read resets the backoff to backoff_init; the
loop never emits a reopen action without the preceding backoff sleep; and
assuming backoff_init ≤ backoff_max, the backoff stays within
[backoff_init, backoff_max] at every iteration the loop reaches. -/
theorem backoff_spec (cfg : DetCfg) (h1 : cfg.backoff_init ≤ cfg.backoff_max) :
    (∀ st ok now, LoopAction.reopen ∈ (streamStep cfg st ok now).2 →
        (streamStep cfg st ok now).2 = [LoopAction.sleep st.backoff, LoopAction.reopen]
        ∧ ∃ st2, (streamStep cfg st ok now).1 = StepOutcome.next st2
            ∧ st2.backoff = min (st.backoff * 2) cfg.backoff_max)
    ∧ (∀ st now, ∃ st2, (streamStep cfg st true now).1 = StepOutcome.next st2
        ∧ st2.backoff = cfg.backoff_init)
    ∧ (∀ t inputs st2, runLoop cfg t inputs = StepOutcome.next st2 →
        cfg.backoff_init ≤ st2.backoff ∧ st2.backoff ≤ cfg.backoff_max) := by
  have step_inv : ∀ (st : LoopState) (ok : Bool) (now : ℚ) (st2 : LoopState),
      cfg.backoff_init ≤ st.backoff → st.backoff ≤ cfg.backoff_max →
      (streamStep cfg st ok now).1 = StepOutcome.next st2 →
      cfg.backoff_init ≤ st2.backoff ∧ st2.backoff ≤ cfg.backoff_max := by
    intro st ok now st2 hl hu hstep
    rw [streamStep] at hstep
    cases ok with
    | true =>
      rw [if_pos rfl] at hstep
      injection hstep with h
      rw [← h]
      exact ⟨le_refl _, h1⟩
    | false =>
      rw [if_neg (by simp)] at hstep
      simp only at hstep
      by_cases hc : cfg.reopen_on_stall_sec < now - st.last_ok
          ∨ cfg.max_fail_reads ≤ st.fail_reads + 1 ∨ st.reopen_request = true
      · rw [if_pos hc] at hstep
        by_cases hneg : st.backoff < 0
        · rw [if_pos hneg] at hstep
          exact absurd hstep (by simp)
        · rw [if_neg hneg] at hstep
          injection hstep with h
          rw [← h]
          constructor
          · apply le_min _ h1
            have hb : 0 ≤ st.backoff := le_of_not_lt hneg
            linarith
          · exact min_le_right _ _
      · rw [if_neg hc] at hstep
        injection hstep with h
        rw [← h]
        exact ⟨hl, hu⟩
  refine ⟨fun st ok now hmem => ?_,
    fun st now =>
      ⟨{ st with last_ok := now, fail_reads := 0, backoff := cfg.backoff_init },
        by rw [streamStep, if_pos rfl], rfl⟩,
    fun t inputs st2 hrun => ?_⟩
  · rw [streamStep] at hmem ⊢
    cases ok with
    | true => simp at hmem
    | false =>
      rw [if_neg (by simp)] at hmem ⊢
      simp only at hmem ⊢
      by_cases hc : cfg.reopen_on_stall_sec < now - st.last_ok
          ∨ cfg.max_fail_reads ≤ st.fail_reads + 1 ∨ st.reopen_request = true
      · rw [if_pos hc] at hmem ⊢
        by_cases hneg : st.backoff < 0
        · rw [if_pos hneg] at hmem
          simp at hmem
        · rw [if_neg hneg] at hmem ⊢
          exact ⟨rfl, _, rfl, rfl⟩
      · rw [if_neg hc] at hmem
        simp at hmem
  · rw [runLoop] at hrun
    have hgen : ∀ (inputs : List (Bool × ℚ)) (o : StepOutcome),
        (∀ st, o = StepOutcome.next st →
          cfg.backoff_init ≤ st.backoff ∧ st.backoff ≤ cfg.backoff_max) →
        ∀ st2, inputs.foldl (stepFold cfg) o = StepOutcome.next st2 →
          cfg.backoff_init ≤ st2.backoff ∧ st2.backoff ≤ cfg.backoff_max := by
      intro inputs
      induction inputs with
      | nil => intro o ho st2 h2; exact ho st2 h2
      | cons i rest ih =>
        intro o ho st2 h2
        rw [List.foldl_cons] at h2
        refine ih (stepFold cfg o i) ?_ st2 h2
        intro st hst
        cases o with
        | raised => simp [stepFold] at hst
        | next st0 =>
          have hb := ho st0 rfl
          exact step_inv st0 i.1 i.2 st hb.1 hb.2 (by simpa [stepFold] using hst)
    refine hgen inputs (StepOutcome.next (initLoopState cfg t)) ?_ st2 hrun
    intro st hst
    injection hst with h
    rw [← h]
    exact ⟨le_refl _, h1⟩

/-- Witness for C6 at a concrete configuration and run: with backoff_init
= 1 and backoff_max = 30, after a failed read, a reconnect and a
successful read the loop reaches state ⟨1, 0, 1, false⟩, whose backoff
lies within [1, 30]. -/
theorem backoff_spec_witness :
    (1 : ℚ) ≤ (LoopState.mk 1 0 1 false).backoff
    ∧ (LoopState.mk 1 0 1 false).backoff ≤ 30 :=
  (backoff_spec ⟨10, 1, 1, 30⟩ (by norm_num)).2.2 0 [(false, 0), (true, 1)]
    (LoopState.mk 1 0 1 false)
    (by norm_num [runLoop, stepFold, initLoopState, streamStep, min_def])

/-! ## Claim theorems: Orchestrator event handling -/

/-- C7: an emitted event shorter than MIN_EVENT_SECONDS is discarded with
no clip extraction, but still arms a blackout of
min(POST_EVENT_SILENCE_SEC, 2) seconds from now, during which the main
loop drops every detection. -/
theorem short_event_blackout (cfg : OrchCfg) (t_first t_last now : ℚ)
    (h : max 0 (t_last - t_first) < cfg.min_event_seconds) :
    process_emitted cfg t_first t_last now
      = ⟨now + min cfg.post_event_silence_sec 2, ClipDecision.skipShort⟩
    ∧ ∀ ts, ts < now + min cfg.post_event_silence_sec 2 →
        blackoutDrops ts (now + min cfg.post_event_silence_sec 2) = true := by
  refine ⟨?_, fun ts hts => ?_⟩
  · simp only [process_emitted]
    rw [if_pos h]
  · simpa [blackoutDrops] using hts

/-- Witness for C7: an event of duration 0.4 s with MIN_EVENT_SECONDS = 1
and an 8-second blackout is skipped and arms a 2-second blackout. -/
theorem short_event_blackout_witness :
    process_emitted ⟨1, 8, 5, 5, 3 / 2⟩ 0 (2 / 5) 100 = ⟨102, ClipDecision.skipShort⟩ := by
  have h := (short_event_blackout ⟨1, 8, 5, 5, 3 / 2⟩ 0 (2 / 5) 100 (by norm_num)).1
  rw [h]
  norm_num [min_def]

/-- C8: an accepted event's clip window is t0 = max(0, first − pre_roll),
t1 = min(last + post_roll, now − safety_lag); extraction is requested
exactly when t1 > t0, and an empty clamped window silently skips the
event. -/
theorem clip_window_spec (cfg : OrchCfg) (t_first t_last now : ℚ)
    (h : cfg.min_event_seconds ≤ max 0 (t_last - t_first)) :
    (min (t_last + cfg.post_roll) (now - cfg.clip_safety_lag) ≤ max 0 (t_first - cfg.pre_roll) →
      process_emitted cfg t_first t_last now
        = ⟨now + cfg.post_event_silence_sec, ClipDecision.skipEmptyWindow⟩)
    ∧ (max 0 (t_first - cfg.pre_roll) < min (t_last + cfg.post_roll) (now - cfg.clip_safety_lag) →
      process_emitted cfg t_first t_last now
        = ⟨now + cfg.post_event_silence_sec,
           ClipDecision.extract (max 0 (t_first - cfg.pre_roll))
             (min (t_last + cfg.post_roll) (now - cfg.clip_safety_lag))⟩) := by
  constructor <;> intro h2 <;> simp only [process_emitted] <;> rw [if_neg (not_lt.mpr h)]
  · rw [if_pos h2]
  · rw [if_neg (not_le.mpr h2)]

/-- Witness for C8: a 2-second event at [10, 12] with pre/post-roll 5 and
safety lag 3/2 is extracted over [5, 17] when now = 100, and silently
skipped when now = 5 leaves an empty window. -/
theorem clip_window_spec_witness :
    process_emitted ⟨1, 8, 5, 5, 3 / 2⟩ 10 12 100 = ⟨108, ClipDecision.extract 5 17⟩
    ∧ process_emitted ⟨1, 8, 5, 5, 3 / 2⟩ 10 12 5 = ⟨13, ClipDecision.skipEmptyWindow⟩ := by
  constructor
  · have h := (clip_window_spec ⟨1, 8, 5, 5, 3 / 2⟩ 10 12 100 (by norm_num)).2
      (by norm_num [min_def, max_def])
    rw [h]
    norm_num [min_def, max_def]
  · have h := (clip_window_spec ⟨1, 8, 5, 5, 3 / 2⟩ 10 12 5 (by norm_num)).1
      (by norm_num [min_def, max_def])
    rw [h]
    norm_num

/-! ## Helper lemmas about `push`, `runPushes` and emission -/

lemma push_state_skip (m : EventMerger) (cls : Cls) (ts : Ts)
    (h : ts < m.cooldown_until ∧ m.active = none) : (m.push cls ts).2 = m := by
  rw [EventMerger.push, if_pos h]

lemma push_state_new (m : EventMerger) (cls : Cls) (ts : Ts)
    (hn : m.active = none) (hge : m.cooldown_until ≤ ts) :
    (m.push cls ts).2 = { m with active := some ⟨ts, ts, ts, [(cls, 1)]⟩ } := by
  rw [EventMerger.push, if_neg (fun hc => absurd hc.1 (not_lt.mpr hge))]
  rw [hn]
  rfl

lemma push_state_add (m : EventMerger) (cls : Cls) (ts : Ts) (ae : ActiveEvent)
    (ha : m.active = some ae) :
    (m.push cls ts).2 = { m with active := some (ae.add cls ts) } := by
  rw [EventMerger.push, if_neg (fun hc => by rw [ha] at hc; exact Option.noConfusion hc.2), ha]

lemma runPushes_cons (m : EventMerger) (p : Cls × Ts) (rest : List (Cls × Ts)) :
    runPushes m (p :: rest) = runPushes (m.push p.1 p.2).2 rest := rfl

/-- If an emission comes out of `flush_due`, it is the active event's
start and last-detection timestamps together with its `top_cls`. -/
lemma flush_due_emit_inv (m : EventMerger) (now t_first t_last : Ts) (o : EventOut)
    (h : (m.flush_due now).1 = some (t_first, t_last, o)) :
    ∃ ae, m.active = some ae ∧ t_first = ae.start_ts ∧ t_last = ae.last_det_ts
      ∧ o = ⟨(ae.top_cls).1, (ae.top_cls).2⟩ := by
  cases hma : m.active with
  | none => simp [EventMerger.flush_due, hma] at h
  | some ae =>
    simp only [EventMerger.flush_due, hma] at h
    by_cases hle : m.idle_end ≤ now - ae.last_det_ts
    · rw [if_pos hle] at h
      simp only [Option.some.injEq, Prod.mk.injEq] at h
      exact ⟨ae, rfl, h.1.symm, h.2.1.symm, h.2.2.symm⟩
    · rw [if_neg hle] at h
      simp at h

/-- The same inversion for `force_close`. -/
lemma force_close_emit_inv (m : EventMerger) (now t_first t_last : Ts) (o : EventOut)
    (h : (m.force_close now).1 = some (t_first, t_last, o)) :
    ∃ ae, m.active = some ae ∧ t_first = ae.start_ts ∧ t_last = ae.last_det_ts
      ∧ o = ⟨(ae.top_cls).1, (ae.top_cls).2⟩ := by
  cases hma : m.active with
  | none => simp [EventMerger.force_close, hma] at h
  | some ae =>
    simp only [EventMerger.force_close, hma, Option.some.injEq, Prod.mk.injEq] at h
    exact ⟨ae, rfl, h.1.symm, h.2.1.symm, h.2.2.symm⟩

/-- Running pushes with non-decreasing timestamps keeps the active event's
start at or before its last-detection timestamp. -/
lemma runPushes_start_le : ∀ (ps : List (Cls × Ts)) (m : EventMerger),
    (ps.map Prod.snd).Sorted (· ≤ ·) →
    (∀ ae, m.active = some ae →
      ae.start_ts ≤ ae.last_det_ts ∧ ∀ p ∈ ps, ae.last_det_ts ≤ p.2) →
    ∀ ae2, (runPushes m ps).active = some ae2 → ae2.start_ts ≤ ae2.last_det_ts := by
  intro ps
  induction ps with
  | nil => intro m _ hm ae2 h2; exact (hm ae2 h2).1
  | cons p rest ih =>
    intro m hsort hm ae2 h2
    rw [List.map_cons, List.sorted_cons] at hsort
    rw [runPushes_cons] at h2
    refine ih (m.push p.1 p.2).2 hsort.2 ?_ ae2 h2
    intro ae hae
    by_cases hsk : p.2 < m.cooldown_until ∧ m.active = none
    · rw [push_state_skip m p.1 p.2 hsk] at hae
      obtain ⟨hs, hall⟩ := hm ae hae
      exact ⟨hs, fun q hq => hall q (List.mem_cons_of_mem p hq)⟩
    · cases hma : m.active with
      | none =>
        have hge : m.cooldown_until ≤ p.2 := by
          by_contra hlt
          exact hsk ⟨not_le.mp hlt, hma⟩
        rw [push_state_new m p.1 p.2 hma hge] at hae
        simp only [Option.some.injEq] at hae
        rw [← hae]
        refine ⟨le_refl _, fun q hq => ?_⟩
        exact hsort.1 q.2 (List.mem_map.mpr ⟨q, hq, rfl⟩)
      | some ae0 =>
        rw [push_state_add m p.1 p.2 ae0 hma] at hae
        simp only [Option.some.injEq] at hae
        obtain ⟨hs, hall⟩ := hm ae0 hma
        rw [← hae]
        refine ⟨le_trans hs (hall p (List.mem_cons_self p rest)), fun q hq => ?_⟩
        simp only [ActiveEvent.add]
        exact hsort.1 q.2 (List.mem_map.mpr ⟨q, hq, rfl⟩)

lemma countsGet_countsInc (l : List (Cls × Nat)) (c c' : Cls) :
    countsGet (countsInc l c) c' = countsGet l c' + (if c = c' then 1 else 0) := by
  induction l with
  | nil =>
    by_cases h : c = c' <;> simp [countsInc, countsGet, h]
  | cons r rest ih =>
    rcases r with ⟨k, v⟩
    rw [countsInc]
    by_cases h : k = c
    · rw [if_pos h]
      simp only [countsGet]
      by_cases h' : c = c'
      · rw [if_pos (h.trans h'), if_pos (h.trans h'), if_pos h']
      · rw [if_neg (fun hk => h' (h.symm.trans hk)), if_neg (fun hk => h' (h.symm.trans hk)),
          if_neg h']
        simp
    · rw [if_neg h]
      simp only [countsGet]
      by_cases h' : k = c'
      · rw [if_pos h', if_pos h', if_neg (fun hc => h (h'.trans hc.symm))]
        simp
      · rw [if_neg h', if_neg h', ih]

/-- Once an event is active, every push is recorded into it: after any
further push sequence the active event's per-class count has grown by
exactly the number of pushes of that class. -/
lemma runPushes_active_counts : ∀ (ps : List (Cls × Ts)) (m : EventMerger) (ae : ActiveEvent),
    m.active = some ae →
    ∃ ae2, (runPushes m ps).active = some ae2 ∧
      ∀ c, countsGet ae2.counts c
        = countsGet ae.counts c + (ps.filter (fun p => decide (p.1 = c))).length := by
  intro ps
  induction ps with
  | nil => intro m ae ha; exact ⟨ae, ha, fun c => by simp [runPushes]⟩
  | cons p rest ih =>
    intro m ae ha
    have hstep : (m.push p.1 p.2).2.active = some (ae.add p.1 p.2) := by
      rw [push_state_add m p.1 p.2 ae ha]
    obtain ⟨ae2, h2, hc⟩ := ih (m.push p.1 p.2).2 (ae.add p.1 p.2) hstep
    refine ⟨ae2, by rw [runPushes_cons]; exact h2, fun c => ?_⟩
    rw [hc c]
    simp only [ActiveEvent.add]
    rw [countsGet_countsInc]
    by_cases h : p.1 = c
    · rw [List.filter_cons]
      simp [h]
      omega
    · rw [List.filter_cons]
      simp [h]

/-! ## Claim theorems: emitted counts and timestamp ordering -/

/-- C1 is false as stated: from a fresh merger, pushes of class "a" at 0
and class "b" at 1 and 2 (strictly increasing, no intervening emission)
make the next successful flush emit count 2 — the dominant class's own
count — not the total 3 of all pushes. -/
theorem flush_count_counterexample :
    ((runPushes (EventMerger.init 4 6) [("a", 0), ("b", 1), ("b", 2)]).flush_due 10).1
      = some (0, 2, ⟨"b", 2⟩)
    ∧ ([(("a" : Cls), (0 : Ts)), ("b", 1), ("b", 2)]).length = 3
    ∧ (2 : ℕ) ≠ 3 := by
  refine ⟨?_, rfl, by norm_num⟩
  norm_num [runPushes, EventMerger.init, EventMerger.push, EventMerger.flush_due,
    ActiveEvent.add, ActiveEvent.top_cls, maxByCount, countsInc, countsGet]
  simp +decide [maxByCount, countsGet]

/-- C1 (amended): for every sequence of pushes with strictly increasing
timestamps starting at or after the cooldown deadline of a merger with no
active event, and no intervening emission, the count emitted by the next
successful `flush_due` equals the number of pushes whose class is the
emitted dominant class (not the total across all classes). -/
theorem flush_count_dominant (c1 : Cls) (t1 : Ts) (rest : List (Cls × Ts)) (m0 : EventMerger)
    (h0 : m0.active = none) (hcd : m0.cooldown_until ≤ t1)
    (_hinc : (((c1, t1) :: rest).map Prod.snd).Sorted (· < ·))
    (now t_first t_last : Ts) (o : EventOut)
    (hflush : ((runPushes m0 ((c1, t1) :: rest)).flush_due now).1 = some (t_first, t_last, o)) :
    o.count = (((c1, t1) :: rest).filter (fun p => decide (p.1 = o.cls))).length := by
  have h1 : (m0.push c1 t1).2.active = some ⟨t1, t1, t1, [(c1, 1)]⟩ := by
    rw [push_state_new m0 c1 t1 h0 hcd]
  obtain ⟨ae2, h2, hc⟩ := runPushes_active_counts rest (m0.push c1 t1).2 _ h1
  rw [runPushes_cons] at hflush
  obtain ⟨ae, hma, _, _, ho⟩ := flush_due_emit_inv _ now t_first t_last o hflush
  rw [h2] at hma
  have hae : ae2 = ae := Option.some.inj hma
  subst hae
  rw [ho]
  simp only
  rw [top_cls_snd_eq, hc ((ae2.top_cls).1)]
  by_cases hcc : c1 = (ae2.top_cls).1
  · rw [List.filter_cons]
    simp [countsGet, hcc]
    omega
  · rw [List.filter_cons]
    simp [countsGet, hcc]

/-- Witness for the amended C1: three "person" pushes at 0, 1, 2 flushed at
7 emit count 3, the number of "person" pushes. -/
theorem flush_count_dominant_witness :
    (EventOut.mk "person" 3).count
      = ([(("person" : Cls), (0 : Ts)), ("person", 1), ("person", 2)].filter
          (fun p => decide (p.1 = (EventOut.mk "person" 3).cls))).length := by
  have heval : ((runPushes (EventMerger.init 4 6)
      [("person", 0), ("person", 1), ("person", 2)]).flush_due 7).1
      = some (0, 2, ⟨"person", 3⟩) := by
    norm_num [runPushes, EventMerger.init, EventMerger.push, EventMerger.flush_due,
      ActiveEvent.add, ActiveEvent.top_cls, maxByCount, countsInc, countsGet]
  exact flush_count_dominant "person" 0 [("person", 1), ("person", 2)] (EventMerger.init 4 6)
    rfl (by norm_num [EventMerger.init]) (by norm_num [List.sorted_cons]) 7 0 2 ⟨"person", 3⟩ heval

/-- C5 is false as stated: with decreasing push timestamps (10 then 5),
the emitted event has first = 10 > 5 = last; the spec's invariant only
holds for monotone timestamps. -/
theorem first_le_last_counterexample :
    ((runPushes (EventMerger.init 4 6) [("person", 10), ("person", 5)]).flush_due 20).1
      = some (10, 5, ⟨"person", 2⟩)
    ∧ ¬ ((10 : ℚ) ≤ 5) := by
  constructor
  · norm_num [runPushes, EventMerger.init, EventMerger.push, EventMerger.flush_due,
      ActiveEvent.add, ActiveEvent.top_cls, maxByCount, countsInc, countsGet]
  · norm_num

/-- C5 (amended): for every sequence of pushes with non-decreasing
timestamps into a merger with no active event, every event emitted by
`flush_due` or `force_close` has first ≤ last. -/
theorem first_le_last (ps : List (Cls × Ts)) (m0 : EventMerger) (h0 : m0.active = none)
    (hmono : (ps.map Prod.snd).Sorted (· ≤ ·)) (now t_first t_last : Ts) (o : EventOut) :
    (((runPushes m0 ps).flush_due now).1 = some (t_first, t_last, o) → t_first ≤ t_last)
    ∧ (((runPushes m0 ps).force_close now).1 = some (t_first, t_last, o) → t_first ≤ t_last) := by
  have hinv : ∀ ae2, (runPushes m0 ps).active = some ae2 →
      ae2.start_ts ≤ ae2.last_det_ts :=
    runPushes_start_le ps m0 hmono
      (fun ae hae => by rw [h0] at hae; exact Option.noConfusion hae)
  refine ⟨fun h => ?_, fun h => ?_⟩
  · obtain ⟨ae, hma, hf, hl, _⟩ := flush_due_emit_inv _ now t_first t_last o h
    rw [hf, hl]
    exact hinv ae hma
  · obtain ⟨ae, hma, hf, hl, _⟩ := force_close_emit_inv _ now t_first t_last o h
    rw [hf, hl]
    exact hinv ae hma

/-- Witness for the amended C5: the event emitted after monotone pushes at
0, 1, 2 satisfies first = 0 ≤ 2 = last. -/
theorem first_le_last_witness : (0 : ℚ) ≤ 2 := by
  have heval : ((runPushes (EventMerger.init 4 6)
      [("person", 0), ("person", 1), ("person", 2)]).flush_due 7).1
      = some (0, 2, ⟨"person", 3⟩) := by
    norm_num [runPushes, EventMerger.init, EventMerger.push, EventMerger.flush_due,
      ActiveEvent.add, ActiveEvent.top_cls, maxByCount, countsInc, countsGet]
  exact (first_le_last [("person", 0), ("person", 1), ("person", 2)] (EventMerger.init 4 6)
    rfl (by norm_num [List.sorted_cons]) 7 0 2 ⟨"person", 3⟩).1 heval
